import Mathlib

/-!
# Verification of the Habbo-Emulator navigation core

A shallow embedding of the pathfinding and tile-occupancy core of the
emulator (`PathFinder.cpp`, `TileInstance.h`) together with proofs about
its behaviour.

Conventions of the embedding:
* `int16` coordinates become `Int` (all reachable coordinates stay far
  from the 16-bit limits because every created node passed the grid
  lookup, which bounds them by the grid's dimensions);
* `uint32` costs become `Nat` with an explicit `% 2^32` wherever the
  source performs `uint32` arithmetic;
* the grid `m_Grid[Y][X]` becomes a `List (List Char)` with an `Option`
  returning lookup: `none` models an out-of-bounds access, which in the
  source is undefined behaviour — the whole search is aborted with an
  `oobAccess` marker the moment such an access happens;
* the raw `Node*` graph becomes an inductive value: every parent pointer
  assigned by the source points to a node already moved to the closed
  list, and closed nodes are never mutated afterwards, so value
  semantics for the parent chain is faithful to the pointer graph;
* the search loop takes explicit fuel; running out of fuel returns the
  loop state reached after exactly `fuel` iterations, which doubles as a
  way to observe every intermediate state of a run.
-/

/-- Cell coordinate, the source's `Position` struct (fields `X`, `Y`). -/
structure Pos where
  x : Int
  y : Int
deriving DecidableEq, Repr

/-- The source's `GridArray`: a 2D array of traversability markers
indexed `[row][column]`, i.e. `[y][x]`; the marker `'X'` means blocked. -/
abbrev GridArray := List (List Char)

/-- `2^32`, the modulus of the source's `uint32` cost arithmetic. -/
def u32 : Nat := 4294967296

/-- Bounds-checked lookup of `m_Grid[y][x]`.  The C++ indexing carries no
bounds check at all; `none` marks the out-of-bounds access that would be
undefined behaviour in the source. -/
def gridAt (grid : GridArray) (y x : Int) : Option Char :=
  if hy : 0 ≤ y ∧ y.toNat < grid.length then
    let row := grid.get ⟨y.toNat, hy.2⟩
    if hx : 0 ≤ x ∧ x.toNat < row.length then some (row.get ⟨x.toNat, hx.2⟩)
    else none
  else none

/-- A position is inside the grid when the `[y][x]` lookup succeeds. -/
def inBoundsPos (grid : GridArray) (p : Pos) : Prop :=
  (gridAt grid p.y p.x).isSome = true

instance (grid : GridArray) (p : Pos) : Decidable (inBoundsPos grid p) := by
  unfold inBoundsPos; infer_instance

/-- `PathFinder::CheckValidTile`: the tile is valid unless its marker is
`'X'`.  Nothing else is consulted — in particular no occupancy state —
and no bounds check precedes the raw `m_Grid[Y][X]` access, which is the
`none` case. -/
def checkValidTile (grid : GridArray) (p : Pos) : Option Bool :=
  match gridAt grid p.y p.x with
  | none => none
  | some c => if c = 'X' then some false else some true

/-- A search `Node`: coordinates, G cost, H cost and the parent
back-link (`nullptr` = `none`).  The class body lives in the missing
`PathFinder.h`; the fields and accessors below are the ones
`PathFinder.cpp` uses, with the freshly constructed node carrying
`G = 0`, `H = 0` (the spec seeds the open list "with a node at `start`
(G=0)"). -/
inductive Node where
  | mk (x y : Int) (gCost hCost : Nat) (parentNode : Option Node)
deriving Repr

/-- `Node::GetPositionX`. -/
def Node.x : Node → Int
  | .mk x _ _ _ _ => x

/-- `Node::GetPositionY`. -/
def Node.y : Node → Int
  | .mk _ y _ _ _ => y

/-- `Node::GetGCost`. -/
def Node.gCost : Node → Nat
  | .mk _ _ g _ _ => g

/-- `Node::GetHCost`. -/
def Node.hCost : Node → Nat
  | .mk _ _ _ h _ => h

/-- `Node::GetParentNode`. -/
def Node.parentNode : Node → Option Node
  | .mk _ _ _ _ p => p

/-- `Node::GetTotalCost`.  Modelled from the spec: the total cost is
"G+H" (`uint32` addition, hence the modulus). -/
def Node.totalCost (n : Node) : Nat := (n.gCost + n.hCost) % u32

/-- `Node::SetGCost`. -/
def Node.setGCost : Node → Nat → Node
  | .mk x y _ h p, g => .mk x y g h p

/-- `Node::SetParentNode`. -/
def Node.setParentNode : Node → Option Node → Node
  | .mk x y g h _, p => .mk x y g h p

/-- The node's coordinate as a `Pos` value. -/
def Node.pos (n : Node) : Pos := ⟨n.x, n.y⟩

/-- The cells visited by the source's final
`while (m_Current != nullptr) m_Current = m_Current->GetParentNode();`
walk: the node's cell followed by its ancestors, goal first. -/
def Node.chain : Node → List Pos
  | .mk x y _ _ none => [⟨x, y⟩]
  | .mk x y _ _ (some p) => ⟨x, y⟩ :: p.chain

/-- `PathFinder::DoesNodeExist`: the first node in the list carrying the
given coordinate, or `none`. -/
def findNode (nodes : List Node) (p : Pos) : Option Node :=
  nodes.find? (fun n => n.x == p.x && n.y == p.y)

/-- In-place mutation of the node `DoesNodeExist` found: the first node
at coordinate `p` receives the new G cost and parent (`SetGCost`,
`SetParentNode`); all other nodes are untouched. -/
def updateFirst (nodes : List Node) (p : Pos) (g : Nat) (parent : Node) : List Node :=
  match nodes with
  | [] => []
  | n :: rest =>
    if n.x == p.x && n.y == p.y then (n.setGCost g).setParentNode (some parent) :: rest
    else n :: updateFirst rest p g parent

/-- Pair every list element with its index, starting at `k` (the open
list iterator together with its offset). -/
def enumFrom : Nat → List α → List (Nat × α)
  | _, [] => []
  | k, a :: rest => (k, a) :: enumFrom (k + 1) rest

/-- The body of the selection loop: scan the (index, node) pairs keeping
the pair whose total cost is `≤` the running best — exactly the
source's `if ((*l_Itr)->GetTotalCost() <= m_Current->GetTotalCost())`. -/
def selectScan (best : Node × Nat) : List (Nat × Node) → Node × Nat
  | [] => best
  | (i, n) :: rest =>
    selectScan (if n.totalCost ≤ best.1.totalCost then (n, i) else best) rest

/-- Selection of `m_Current` from a non-empty open list
`first :: rest`: initialise with the begin iterator, then scan the whole
list from the beginning. -/
def selectNode (first : Node) (rest : List Node) : Node × Nat :=
  selectScan (first, 0) (enumFrom 0 (first :: rest))

/-- The eight direction offsets of the `PathFinder` constructor, in
source order: four orthogonal first, then four diagonal. -/
def directions : List Pos :=
  [⟨0, 1⟩, ⟨1, 0⟩, ⟨0, -1⟩, ⟨-1, 0⟩, ⟨-1, -1⟩, ⟨1, 1⟩, ⟨-1, 1⟩, ⟨1, -1⟩]

/-- `PathFinder::CalculateHeuristic`: `10 * (|x - endX| + |y - endY|)`
of the node handed to it (the source hands it `m_Current`, not the
freshly created neighbour). -/
def calculateHeuristic (current : Node) (endX endY : Int) : Nat :=
  10 * ((current.x - endX).natAbs + (current.y - endY).natAbs)

/-- The inner `for` over the eight directions.  For each (index, offset)
pair: build the future position, run `CheckValidTile` (aborting the
whole search with the offending position on an out-of-bounds access),
skip invalid or already-closed cells, compute the `uint32` G cost
`m_Current->GetGCost() + (i < 4 ? 10 : 14)` and either run the
(mis-)guarded in-place update of an existing open node — the source
compares against `m_Current->GetGCost()`, not against the stored node's
G cost — or append a brand-new node. -/
def expandDirs (grid : GridArray) (endX endY : Int) (cur : Node) (closedL : List Node) :
    List (Nat × Pos) → List Node → Except Pos (List Node)
  | [], openL => .ok openL
  | (i, d) :: rest, openL =>
    let fp : Pos := ⟨cur.x + d.x, cur.y + d.y⟩
    match checkValidTile grid fp with
    | none => .error fp
    | some valid =>
      if valid = false ∨ (findNode closedL fp).isSome = true then
        expandDirs grid endX endY cur closedL rest openL
      else
        let gNew := (cur.gCost + (if i < 4 then 10 else 14)) % u32
        match findNode openL fp with
        | some _ =>
          expandDirs grid endX endY cur closedL rest
            (if gNew < cur.gCost then updateFirst openL fp gNew cur else openL)
        | none =>
          expandDirs grid endX endY cur closedL rest
            (openL ++ [Node.mk fp.x fp.y gNew (calculateHeuristic cur endX endY) (some cur)])

/-- Outcome of the search loop.  The C++ function returns `void`; this
value is the final state of its member variables, which is everything
the loop produces.  `oobAccess p` marks the undefined behaviour of
indexing the grid at the out-of-range coordinate `p`; `outOfFuel` is the
state after the fuel ran out (used to observe intermediate states). -/
inductive RunResult where
  | reached (cur : Node) (openL closedL : List Node)
  | exhausted (cur : Option Node) (closedL : List Node)
  | oobAccess (p : Pos)
  | outOfFuel (openL closedL : List Node) (cur : Option Node)
deriving Repr

/-- The `while (!m_OpenList.empty())` loop.  Each iteration selects the
node with the source's `<=` scan, breaks if it is the end cell, else
moves it from open to closed and expands the eight neighbours. -/
def searchLoop (grid : GridArray) (endX endY : Int) :
    Nat → List Node → List Node → Option Node → RunResult
  | 0, openL, closedL, cur => .outOfFuel openL closedL cur
  | fuel + 1, openL, closedL, cur =>
    match openL with
    | [] => .exhausted cur closedL
    | first :: rest =>
      let sel := selectNode first rest
      if sel.1.x = endX ∧ sel.1.y = endY then
        .reached sel.1 (first :: rest) closedL
      else
        let closedL' := closedL ++ [sel.1]
        let openL' := (first :: rest).eraseIdx sel.2
        match expandDirs grid endX endY sel.1 closedL' (enumFrom 0 directions) openL' with
        | .error p => .oobAccess p
        | .ok openL'' => searchLoop grid endX endY fuel openL'' closedL' (some sel.1)

/-- `PathFinder::CalculatePath`: seed the open list with a node at the
start cell and run the loop.  The C++ function returns `void` — after
the loop it only walks `m_Current`'s parent chain, storing nothing, and
frees every node — so the `RunResult` state is all there is. -/
def calculatePath (grid : GridArray) (startX startY endX endY : Int) (fuel : Nat) : RunResult :=
  searchLoop grid endX endY fuel [Node.mk startX startY 0 0 none] [] none

/-- The total number of cells of a (possibly ragged) grid. -/
def gridSize (grid : GridArray) : Nat := (grid.map List.length).sum

/-- Row-major flat index of a cell, used to count distinct in-bounds
positions. -/
def flatIdx (grid : GridArray) (p : Pos) : Nat :=
  ((grid.map List.length).take p.y.toNat).sum + p.x.toNat

/-- Coordinates of a node list. -/
def posList (l : List Node) : List Pos := l.map Node.pos

/-- No two nodes of the open and closed lists taken together carry the
same coordinate. -/
def StateNodup (openL closedL : List Node) : Prop :=
  (posList openL ++ posList closedL).Nodup

/-- `StateNodup` read off a loop outcome; an aborted run constrains
nothing. -/
def resultNodup : RunResult → Prop
  | .reached _ openL closedL => StateNodup openL closedL
  | .exhausted _ closedL => StateNodup [] closedL
  | .oobAccess _ => True
  | .outOfFuel openL closedL _ => StateNodup openL closedL

/-- Every node of the open and closed lists sits inside the grid. -/
def StateInB (grid : GridArray) (openL closedL : List Node) : Prop :=
  ∀ n ∈ openL ++ closedL, inBoundsPos grid n.pos

/-- `StateInB` read off a loop outcome. -/
def resultInB (grid : GridArray) : RunResult → Prop
  | .reached _ openL closedL => StateInB grid openL closedL
  | .exhausted _ closedL => StateInB grid [] closedL
  | .oobAccess _ => True
  | .outOfFuel openL closedL _ => StateInB grid openL closedL

/-- Did the loop stop in one of the two ways the spec describes —
reaching the end cell or running the open list empty? -/
def terminatedNormally : RunResult → Bool
  | .reached _ _ _ => true
  | .exhausted _ _ => true
  | .oobAccess _ => false
  | .outOfFuel _ _ _ => false

/-- Did the fuel run out before the loop finished? -/
def isOutOfFuel : RunResult → Bool
  | .outOfFuel _ _ _ => true
  | _ => false

/-- The open list a loop outcome carries. -/
def openOf : RunResult → List Node
  | .reached _ openL _ => openL
  | .exhausted _ _ => []
  | .oobAccess _ => []
  | .outOfFuel openL _ _ => openL

/-- The cells the source's final parent-chain walk visits, goal first;
`none` when the walk is never reached (abort / fuel ran out).  The C++
walk stores none of these cells anywhere — this projection is what it
*traverses*. -/
def resultChain : RunResult → Option (List Pos)
  | .reached cur _ _ => some cur.chain
  | .exhausted (some cur) _ => some cur.chain
  | .exhausted none _ => some []
  | .oobAccess _ => none
  | .outOfFuel _ _ _ => none

/-- 1×1 fully walkable grid. -/
def gTrivial : GridArray := [['.']]

/-- 2×2 fully walkable grid. -/
def g22 : GridArray := [['.', '.'], ['.', '.']]

/-- 3×1 fully walkable grid (one row of three cells). -/
def g31 : GridArray := [['.', '.', '.']]

/-- 4×4 grid whose border is blocked and whose inner 2×2 block is
walkable — expansion never probes outside the grid here. -/
def g44 : GridArray :=
  [['X', 'X', 'X', 'X'],
   ['X', '.', '.', 'X'],
   ['X', '.', '.', 'X'],
   ['X', 'X', 'X', 'X']]

/-- 3×3 grid whose only walkable cell is the centre (1,1): every
neighbour of the centre is blocked and in bounds, so a search from the
centre exhausts its open list without any out-of-range probe. -/
def gClosed : GridArray :=
  [['X', 'X', 'X'],
   ['X', '.', 'X'],
   ['X', 'X', 'X']]

/-- Modelled from the spec: the body of `TileInstance` lives in a
missing `TileInstance.cpp`; only the header is in the sources.  Per the
spec's data model a tile holds the optional occupying-entity reference
(`m_Habbo`, as an opaque entity id), the static/solid-object flag, and
the walkable height (`m_TileHeight`). -/
structure TileInstance where
  habbo : Option Nat
  solid : Bool
  tileHeight : Int
deriving DecidableEq, Repr

/-- Modelled from the spec: `SetOccupied(cell, entity | none)` "assigns
or clears the occupying-entity reference for a cell" — nothing else; the
signature (`bool p_Occupied`, optional `Habbo*`) is the header's
`TileInstance::SetTileOccupied`. -/
def setTileOccupied (occupied : Bool) (habbo : Option Nat) (t : TileInstance) : TileInstance :=
  if occupied then { t with habbo := habbo } else { t with habbo := none }

/-- Modelled from the spec: `ContainsSolidObject(cell)` is "true iff a
static, non-entity object occupies the cell" — the solid flag. -/
def tileContainsSolidObject (t : TileInstance) : Bool := t.solid

/-- Modelled from the spec: `CanWalkOn(cell)` is true iff the cell is
not flagged solid; per the spec's stated policy, entity occupancy "does
not by itself block" a cell (bounds are the map's business, not the
single tile's). -/
def canWalkOnTile (t : TileInstance) : Bool := !t.solid

/-- Claim C2 as the spec words it: for every in-bounds cell the
per-expansion validity check accepts iff the grid marker is walkable AND
the occupancy map reports no solid object on the cell. -/
def validityConsultsOccupancy (grid : GridArray) (tiles : Pos → TileInstance) : Prop :=
  ∀ p : Pos, inBoundsPos grid p →
    (checkValidTile grid p = some true ↔
      (gridAt grid p.y p.x ≠ some 'X' ∧ tileContainsSolidObject (tiles p) = false))

/-- Concrete node used to exhibit the tie-break behaviour. -/
def cexNodeA : Node := Node.mk 0 0 10 10 none

/-- Second concrete node with the same total cost as `cexNodeA` but a
different coordinate. -/
def cexNodeB : Node := Node.mk 5 5 10 10 none

/-- Current node of the concrete C3 scenario: the start cell of `g44`,
`G = 0`. -/
def c3cur : Node := Node.mk 1 1 0 0 none

/-- An open node at (2,2) carrying the deliberately large G cost 50: a
route through `c3cur` would cost only 14, so the claim demands an
update. -/
def c3openNode : Node := Node.mk 2 2 50 20 none

/-! ## Basic facts about nodes, enumeration and selection -/

@[simp] theorem Node.x_mk (x y : Int) (g h : Nat) (p : Option Node) :
    (Node.mk x y g h p).x = x := rfl

@[simp] theorem Node.y_mk (x y : Int) (g h : Nat) (p : Option Node) :
    (Node.mk x y g h p).y = y := rfl

@[simp] theorem Node.gCost_mk (x y : Int) (g h : Nat) (p : Option Node) :
    (Node.mk x y g h p).gCost = g := rfl

@[simp] theorem Node.hCost_mk (x y : Int) (g h : Nat) (p : Option Node) :
    (Node.mk x y g h p).hCost = h := rfl

@[simp] theorem Node.parentNode_mk (x y : Int) (g h : Nat) (p : Option Node) :
    (Node.mk x y g h p).parentNode = p := rfl

@[simp] theorem Node.pos_mk (x y : Int) (g h : Nat) (p : Option Node) :
    (Node.mk x y g h p).pos = ⟨x, y⟩ := rfl

@[simp] theorem Node.pos_setBoth (n : Node) (g : Nat) (q : Option Node) :
    ((n.setGCost g).setParentNode q).pos = n.pos := by
  cases n; rfl

theorem Node.pos_x (n : Node) : n.pos.x = n.x := rfl

theorem Node.pos_y (n : Node) : n.pos.y = n.y := rfl

theorem getElem?_perm_eraseIdx {α : Type} :
    ∀ (l : List α) (i : Nat) (a : α), l[i]? = some a → List.Perm l (a :: l.eraseIdx i)
  | [], i, a, h => by simp at h
  | b :: t, 0, a, h => by
      simp at h
      subst h
      simp [List.eraseIdx]
  | b :: t, i + 1, a, h => by
      simp at h
      have ih := getElem?_perm_eraseIdx t i a h
      have h1 : List.Perm (b :: t) (b :: a :: t.eraseIdx i) := List.Perm.cons b ih
      have h2 : List.Perm (b :: a :: t.eraseIdx i) (a :: b :: t.eraseIdx i) :=
        List.Perm.swap a b _
      exact h1.trans h2

theorem mem_enumFrom_getElem? {α : Type} :
    ∀ (l : List α) (k i : Nat) (a : α),
      (i, a) ∈ enumFrom k l → ∃ j, i = k + j ∧ l[j]? = some a
  | [], _, _, _, h => by simp [enumFrom] at h
  | b :: t, k, i, a, h => by
      rw [enumFrom, List.mem_cons] at h
      rcases h with h | h
      · rw [Prod.mk.injEq] at h
        exact ⟨0, by omega, by simp [h.2.symm]⟩
      · obtain ⟨j, hj, hget⟩ := mem_enumFrom_getElem? t (k + 1) i a h
        exact ⟨j + 1, by omega, by simpa using hget⟩

theorem getElem?_mem_enumFrom {α : Type} :
    ∀ (l : List α) (k j : Nat) (a : α), l[j]? = some a → (k + j, a) ∈ enumFrom k l
  | [], _, _, _, h => by simp at h
  | b :: t, k, 0, a, h => by
      simp at h
      simp [enumFrom, h]
  | b :: t, k, j + 1, a, h => by
      simp at h
      have ih := getElem?_mem_enumFrom t (k + 1) j a h
      have heq : k + (j + 1) = (k + 1) + j := by omega
      rw [heq, enumFrom, List.mem_cons]
      exact Or.inr ih

theorem selectScan_spec (l : List Node) :
    ∀ (t : List Node) (k : Nat) (b : Node × Nat),
      l[b.2]? = some b.1 →
      b.2 ≤ k →
      (∀ (i : Nat) (n : Node), (i, n) ∈ enumFrom k t → l[i]? = some n) →
      (∀ (j : Nat) (n : Node), l[j]? = some n →
        ((j, n) ∈ enumFrom k t ∨ b.1.totalCost ≤ n.totalCost)) →
      (∀ (j : Nat) (n : Node), b.2 < j → l[j]? = some n →
        ((j, n) ∈ enumFrom k t ∨ b.1.totalCost < n.totalCost)) →
      l[(selectScan b (enumFrom k t)).2]? = some (selectScan b (enumFrom k t)).1 ∧
      (selectScan b (enumFrom k t)).1.totalCost ≤ b.1.totalCost ∧
      (∀ (j : Nat) (n : Node), l[j]? = some n →
        (selectScan b (enumFrom k t)).1.totalCost ≤ n.totalCost) ∧
      (∀ (j : Nat) (n : Node), (selectScan b (enumFrom k t)).2 < j → l[j]? = some n →
        (selectScan b (enumFrom k t)).1.totalCost < n.totalCost) := by
  intro t
  induction t with
  | nil =>
    intro k b hb hbk hval h4 h5
    refine ⟨hb, le_refl _, ?_, ?_⟩
    · intro j n hj
      rcases h4 j n hj with h | h
      · simp [enumFrom] at h
      · exact h
    · intro j n hlt hj
      rcases h5 j n hlt hj with h | h
      · simp [enumFrom] at h
      · exact h
  | cons hd t' ih =>
    intro k b hb hbk hval h4 h5
    rw [enumFrom]
    simp only [selectScan]
    have hvhd : l[k]? = some hd := by
      apply hval k hd
      rw [enumFrom]
      exact List.mem_cons_self _ _
    by_cases hc : hd.totalCost ≤ b.1.totalCost
    · rw [if_pos hc]
      have hres := ih (k + 1) (hd, k) hvhd (Nat.le_succ k)
        (fun i n hmem => hval i n (by rw [enumFrom]; exact List.mem_cons_of_mem _ hmem))
        (fun j n hj => by
          rcases h4 j n hj with hmem | hle
          · rw [enumFrom, List.mem_cons] at hmem
            rcases hmem with heq | hmem
            · rw [Prod.mk.injEq] at heq
              exact Or.inr (heq.2 ▸ le_refl _)
            · exact Or.inl hmem
          · exact Or.inr (le_trans hc hle))
        (fun j n hlt hj => by
          rcases h5 j n (lt_of_le_of_lt hbk hlt) hj with hmem | hle
          · rw [enumFrom, List.mem_cons] at hmem
            rcases hmem with heq | hmem
            · rw [Prod.mk.injEq] at heq
              omega
            · exact Or.inl hmem
          · exact Or.inr (lt_of_le_of_lt hc hle))
      exact ⟨hres.1, le_trans hres.2.1 hc, hres.2.2.1, hres.2.2.2⟩
    · rw [if_neg hc]
      have hblt : b.1.totalCost < hd.totalCost := Nat.lt_of_not_le fun h => hc h
      exact ih (k + 1) b hb (le_trans hbk (Nat.le_succ k))
        (fun i n hmem => hval i n (by rw [enumFrom]; exact List.mem_cons_of_mem _ hmem))
        (fun j n hj => by
          rcases h4 j n hj with hmem | hle
          · rw [enumFrom, List.mem_cons] at hmem
            rcases hmem with heq | hmem
            · rw [Prod.mk.injEq] at heq
              exact Or.inr (heq.2 ▸ le_of_lt hblt)
            · exact Or.inl hmem
          · exact Or.inr hle)
        (fun j n hlt hj => by
          rcases h5 j n hlt hj with hmem | hle
          · rw [enumFrom, List.mem_cons] at hmem
            rcases hmem with heq | hmem
            · rw [Prod.mk.injEq] at heq
              exact Or.inr (heq.2 ▸ hblt)
            · exact Or.inl hmem
          · exact Or.inr hle)

theorem selectNode_spec (first : Node) (rest : List Node) :
    (first :: rest)[(selectNode first rest).2]? = some (selectNode first rest).1 ∧
    (∀ (j : Nat) (n : Node), (first :: rest)[j]? = some n →
      (selectNode first rest).1.totalCost ≤ n.totalCost) ∧
    (∀ (j : Nat) (n : Node), (selectNode first rest).2 < j → (first :: rest)[j]? = some n →
      (selectNode first rest).1.totalCost < n.totalCost) := by
  have h := selectScan_spec (first :: rest) (first :: rest) 0 (first, 0)
    (by simp) (le_refl 0)
    (fun i n hmem => by
      obtain ⟨j, hj, hget⟩ := mem_enumFrom_getElem? _ 0 i n hmem
      have hji : j = i := by omega
      rw [← hji]
      exact hget)
    (fun j n hj => Or.inl (by simpa using getElem?_mem_enumFrom _ 0 j n hj))
    (fun j n _ hj => Or.inl (by simpa using getElem?_mem_enumFrom _ 0 j n hj))
  exact ⟨h.1, h.2.2.1, h.2.2.2⟩

/-! ## Facts about node lookup, in-place update and expansion -/

theorem pos_eq_iff (n : Node) (p : Pos) : n.pos = p ↔ n.x = p.x ∧ n.y = p.y := by
  cases p
  simp [Node.pos, Pos.mk.injEq]

theorem findNode_eq_none (l : List Node) (p : Pos) (h : findNode l p = none) :
    ∀ n ∈ l, n.pos ≠ p := by
  intro n hn hpos
  have h2 := List.find?_eq_none.mp h n hn
  rw [pos_eq_iff] at hpos
  simp [hpos.1, hpos.2] at h2

theorem findNode_none_not_mem (l : List Node) (p : Pos) (h : findNode l p = none) :
    p ∉ posList l := by
  intro hmem
  rw [posList, List.mem_map] at hmem
  obtain ⟨n, hn, hpos⟩ := hmem
  exact findNode_eq_none l p h n hn hpos

theorem updateFirst_posList (l : List Node) (p : Pos) (g : Nat) (par : Node) :
    posList (updateFirst l p g par) = posList l := by
  induction l with
  | nil => rfl
  | cons n rest ih =>
    rw [updateFirst]
    by_cases hc : (n.x == p.x && n.y == p.y) = true
    · simp only [if_pos hc, posList, List.map_cons, Node.pos_setBoth]
    · simp only [if_neg hc, posList, List.map_cons]
      rw [show List.map Node.pos (updateFirst rest p g par) = posList (updateFirst rest p g par)
        from rfl, ih]
      rfl

theorem checkValidTile_some_inB (grid : GridArray) (p : Pos) (b : Bool)
    (h : checkValidTile grid p = some b) : inBoundsPos grid p := by
  rw [checkValidTile] at h
  rw [inBoundsPos]
  cases hga : gridAt grid p.y p.x with
  | none => rw [hga] at h; cases h
  | some c => rfl

theorem expandDirs_ok_nodup (grid : GridArray) (ex ey : Int) (cur : Node)
    (closedL : List Node) :
    ∀ (dl : List (Nat × Pos)) (openL openL' : List Node),
      expandDirs grid ex ey cur closedL dl openL = .ok openL' →
      (posList openL ++ posList closedL).Nodup →
      (posList openL' ++ posList closedL).Nodup := by
  intro dl
  induction dl with
  | nil =>
    intro openL openL' hok hnd
    simp only [expandDirs] at hok
    cases hok
    exact hnd
  | cons idp rest ih =>
    obtain ⟨i, d⟩ := idp
    intro openL openL' hok hnd
    simp only [expandDirs] at hok
    split at hok
    · simp at hok
    · rename_i valid hcv
      split at hok
      · exact ih _ _ hok hnd
      · rename_i hskip
        push_neg at hskip
        have hcl : findNode closedL ⟨cur.x + d.x, cur.y + d.y⟩ = none :=
          Option.not_isSome_iff_eq_none.mp (by simpa using hskip.2)
        split at hok
        · rename_i nn hfo
          by_cases hglt : (cur.gCost + if i < 4 then 10 else 14) % u32 < cur.gCost
          · rw [if_pos hglt] at hok
            apply ih _ _ hok
            rw [show posList (updateFirst openL ⟨cur.x + d.x, cur.y + d.y⟩
              ((cur.gCost + if i < 4 then 10 else 14) % u32) cur) = posList openL
              from updateFirst_posList ..]
            exact hnd
          · rw [if_neg hglt] at hok
            exact ih _ _ hok hnd
        · rename_i hfo
          apply ih _ _ hok
          have hfp1 : (⟨cur.x + d.x, cur.y + d.y⟩ : Pos) ∉ posList openL :=
            findNode_none_not_mem _ _ hfo
          have hfp2 : (⟨cur.x + d.x, cur.y + d.y⟩ : Pos) ∉ posList closedL :=
            findNode_none_not_mem _ _ hcl
          have hshape : posList (openL ++ [Node.mk (cur.x + d.x) (cur.y + d.y)
              ((cur.gCost + if i < 4 then 10 else 14) % u32)
              (calculateHeuristic cur ex ey) (some cur)]) ++ posList closedL =
              posList openL ++ (⟨cur.x + d.x, cur.y + d.y⟩ : Pos) :: posList closedL := by
            simp [posList]
          rw [hshape]
          have hperm := @List.perm_middle Pos (⟨cur.x + d.x, cur.y + d.y⟩ : Pos)
            (posList openL) (posList closedL)
          rw [hperm.nodup_iff]
          rw [List.nodup_cons]
          refine ⟨?_, hnd⟩
          rw [List.mem_append]
          rintro (hmem | hmem)
          · exact hfp1 hmem
          · exact hfp2 hmem

theorem expandDirs_ok_inB (grid : GridArray) (ex ey : Int) (cur : Node)
    (closedL : List Node) :
    ∀ (dl : List (Nat × Pos)) (openL openL' : List Node),
      expandDirs grid ex ey cur closedL dl openL = .ok openL' →
      (∀ n ∈ openL, inBoundsPos grid n.pos) →
      (∀ n ∈ openL', inBoundsPos grid n.pos) := by
  intro dl
  induction dl with
  | nil =>
    intro openL openL' hok hinb
    simp only [expandDirs] at hok
    cases hok
    exact hinb
  | cons idp rest ih =>
    obtain ⟨i, d⟩ := idp
    intro openL openL' hok hinb
    simp only [expandDirs] at hok
    split at hok
    · simp at hok
    · rename_i valid hcv
      split at hok
      · exact ih _ _ hok hinb
      · split at hok
        · rename_i nn hfo
          by_cases hglt : (cur.gCost + if i < 4 then 10 else 14) % u32 < cur.gCost
          · rw [if_pos hglt] at hok
            apply ih _ _ hok
            intro n hn
            have hmem : n.pos ∈ posList (updateFirst openL ⟨cur.x + d.x, cur.y + d.y⟩
                ((cur.gCost + if i < 4 then 10 else 14) % u32) cur) :=
              List.mem_map_of_mem Node.pos hn
            rw [updateFirst_posList] at hmem
            obtain ⟨m, hm, hmp⟩ := List.mem_map.mp hmem
            exact hmp ▸ hinb m hm
          · rw [if_neg hglt] at hok
            exact ih _ _ hok hinb
        · rename_i hfo
          apply ih _ _ hok
          intro n hn
          rw [List.mem_append] at hn
          rcases hn with hn | hn
          · exact hinb n hn
          · rw [List.mem_singleton] at hn
            subst hn
            exact checkValidTile_some_inB grid _ valid hcv

theorem expandDirs_ok_append (grid : GridArray) (ex ey : Int) (cur : Node)
    (closedL : List Node) (hg : cur.gCost + 14 < u32) :
    ∀ (dl : List (Nat × Pos)) (openL openL' : List Node),
      expandDirs grid ex ey cur closedL dl openL = .ok openL' →
      ∃ extra, openL' = openL ++ extra ∧
        ∀ n ∈ extra, n.parentNode = some cur ∧
          n.hCost = calculateHeuristic cur ex ey ∧
          ∃ i d, (i, d) ∈ dl ∧ n.x = cur.x + d.x ∧ n.y = cur.y + d.y ∧
            n.gCost = cur.gCost + (if i < 4 then 10 else 14) := by
  intro dl
  induction dl with
  | nil =>
    intro openL openL' hok
    simp only [expandDirs] at hok
    cases hok
    exact ⟨[], by simp⟩
  | cons idp rest ih =>
    obtain ⟨i, d⟩ := idp
    intro openL openL' hok
    simp only [expandDirs] at hok
    have hcle : (if i < 4 then 10 else 14) ≤ 14 := by split <;> omega
    have hmod : (cur.gCost + if i < 4 then 10 else 14) % u32 =
        cur.gCost + (if i < 4 then 10 else 14) :=
      Nat.mod_eq_of_lt (by omega)
    split at hok
    · simp at hok
    · rename_i valid hcv
      split at hok
      · obtain ⟨extra, he, hprops⟩ := ih _ _ hok
        refine ⟨extra, he, fun n hn => ?_⟩
        obtain ⟨hp, hh, i', d', hmem, hrest⟩ := hprops n hn
        exact ⟨hp, hh, i', d', List.mem_cons_of_mem _ hmem, hrest⟩
      · split at hok
        · rename_i nn hfo
          rw [if_neg (by rw [hmod]; omega)] at hok
          obtain ⟨extra, he, hprops⟩ := ih _ _ hok
          refine ⟨extra, he, fun n hn => ?_⟩
          obtain ⟨hp, hh, i', d', hmem, hrest⟩ := hprops n hn
          exact ⟨hp, hh, i', d', List.mem_cons_of_mem _ hmem, hrest⟩
        · rename_i hfo
          obtain ⟨extra, he, hprops⟩ := ih _ _ hok
          refine ⟨Node.mk (cur.x + d.x) (cur.y + d.y)
            ((cur.gCost + if i < 4 then 10 else 14) % u32)
            (calculateHeuristic cur ex ey) (some cur) :: extra, ?_, ?_⟩
          · rw [he, List.append_assoc]
            rfl
          · intro n hn
            rw [List.mem_cons] at hn
            rcases hn with hn | hn
            · subst hn
              refine ⟨rfl, rfl, i, d, List.mem_cons_self _ _, by simp, by simp, ?_⟩
              simp only [Node.gCost_mk]
              exact hmod
            · obtain ⟨hp, hh, i', d', hmem, hrest⟩ := hprops n hn
              exact ⟨hp, hh, i', d', List.mem_cons_of_mem _ hmem, hrest⟩

/-! ## State invariants of the search loop -/

theorem stateNodup_move (openL closedL : List Node) (cur : Node) (idx : Nat)
    (hget : openL[idx]? = some cur) (h : StateNodup openL closedL) :
    StateNodup (openL.eraseIdx idx) (closedL ++ [cur]) := by
  have hperm := getElem?_perm_eraseIdx _ _ _ hget
  have hmap : List.Perm (posList openL) (cur.pos :: posList (openL.eraseIdx idx)) :=
    hperm.map Node.pos
  rw [StateNodup] at h ⊢
  have hpc : posList (closedL ++ [cur]) = posList closedL ++ [cur.pos] := by
    simp [posList]
  rw [hpc]
  have h1 : List.Perm (posList openL ++ posList closedL)
      (cur.pos :: (posList (openL.eraseIdx idx) ++ posList closedL)) := by
    have hap := List.Perm.append_right (posList closedL) hmap
    rwa [List.cons_append] at hap
  have h2 : List.Perm
      (posList (openL.eraseIdx idx) ++ (posList closedL ++ [cur.pos]))
      (cur.pos :: (posList (openL.eraseIdx idx) ++ posList closedL)) := by
    have h3 := @List.perm_middle Pos cur.pos
      (posList (openL.eraseIdx idx) ++ posList closedL) ([] : List Pos)
    rw [List.append_nil] at h3
    rw [← List.append_assoc]
    exact h3
  exact (h1.trans h2.symm).nodup_iff.mp h

theorem stateInB_move (grid : GridArray) (openL closedL : List Node) (cur : Node) (idx : Nat)
    (hget : openL[idx]? = some cur) (h : StateInB grid openL closedL) :
    StateInB grid (openL.eraseIdx idx) (closedL ++ [cur]) := by
  have hperm := getElem?_perm_eraseIdx _ _ _ hget
  intro n hn
  apply h
  rw [List.mem_append] at hn ⊢
  rcases hn with hn | hn
  · exact Or.inl (hperm.mem_iff.mpr (List.mem_cons_of_mem _ hn))
  · rw [List.mem_append] at hn
    rcases hn with hn | hn
    · exact Or.inr hn
    · rw [List.mem_singleton] at hn
      subst hn
      exact Or.inl (hperm.mem_iff.mpr (List.mem_cons_self _ _))

theorem searchLoop_outOfFuel_length (grid : GridArray) (ex ey : Int) :
    ∀ (fuel : Nat) (openL closedL : List Node) (cur : Option Node)
      (o c : List Node) (m : Option Node),
      searchLoop grid ex ey fuel openL closedL cur = .outOfFuel o c m →
      c.length = closedL.length + fuel := by
  intro fuel
  induction fuel with
  | zero =>
    intro openL closedL cur o c m h
    simp only [searchLoop] at h
    cases h
    simp
  | succ fuel ih =>
    intro openL closedL cur o c m h
    cases openL with
    | nil =>
      simp only [searchLoop] at h
      cases h
    | cons first rest =>
      simp only [searchLoop] at h
      split at h
      · cases h
      · split at h
        · cases h
        · rename_i openX hexp
          have hlen := ih _ _ _ _ _ _ h
          rw [List.length_append] at hlen
          simp at hlen
          omega

theorem searchLoop_resultNodup (grid : GridArray) (ex ey : Int) :
    ∀ (fuel : Nat) (openL closedL : List Node) (cur : Option Node),
      StateNodup openL closedL →
      resultNodup (searchLoop grid ex ey fuel openL closedL cur) := by
  intro fuel
  induction fuel with
  | zero =>
    intro openL closedL cur h
    simp only [searchLoop, resultNodup]
    exact h
  | succ fuel ih =>
    intro openL closedL cur h
    cases openL with
    | nil =>
      simp only [searchLoop, resultNodup]
      exact h
    | cons first rest =>
      simp only [searchLoop]
      split
      · simp only [resultNodup]
        exact h
      · split
        · simp only [resultNodup]
        · rename_i openX hexp
          apply ih
          have hmoved := stateNodup_move (first :: rest) closedL
            (selectNode first rest).1 (selectNode first rest).2
            (selectNode_spec first rest).1 h
          exact expandDirs_ok_nodup grid ex ey (selectNode first rest).1
            (closedL ++ [(selectNode first rest).1]) _ _ _ hexp hmoved

theorem searchLoop_resultInB (grid : GridArray) (ex ey : Int) :
    ∀ (fuel : Nat) (openL closedL : List Node) (cur : Option Node),
      StateInB grid openL closedL →
      resultInB grid (searchLoop grid ex ey fuel openL closedL cur) := by
  intro fuel
  induction fuel with
  | zero =>
    intro openL closedL cur h
    simp only [searchLoop, resultInB]
    exact h
  | succ fuel ih =>
    intro openL closedL cur h
    cases openL with
    | nil =>
      simp only [searchLoop, resultInB]
      exact h
    | cons first rest =>
      simp only [searchLoop]
      split
      · simp only [resultInB]
        exact h
      · split
        · simp only [resultInB]
        · rename_i openX hexp
          apply ih
          have hmoved := stateInB_move grid (first :: rest) closedL
            (selectNode first rest).1 (selectNode first rest).2
            (selectNode_spec first rest).1 h
          intro n hn
          rw [List.mem_append] at hn
          rcases hn with hn | hn
          · exact expandDirs_ok_inB grid ex ey (selectNode first rest).1
              (closedL ++ [(selectNode first rest).1]) _ _ _ hexp
              (fun m hm => hmoved m (List.mem_append.mpr (Or.inl hm))) n hn
          · exact hmoved n (List.mem_append.mpr (Or.inr hn))

/-! ## Counting distinct in-bounds positions -/

theorem inBoundsPos_iff (grid : GridArray) (p : Pos) :
    inBoundsPos grid p ↔
      ∃ row, grid[p.y.toNat]? = some row ∧ 0 ≤ p.y ∧ 0 ≤ p.x ∧ p.x.toNat < row.length := by
  rw [inBoundsPos, gridAt]
  by_cases hy : 0 ≤ p.y ∧ p.y.toNat < grid.length
  · rw [dif_pos hy]
    by_cases hx : 0 ≤ p.x ∧ p.x.toNat < (grid.get ⟨p.y.toNat, hy.2⟩).length
    · rw [dif_pos hx]
      simp only [Option.isSome_some, true_iff]
      refine ⟨grid.get ⟨p.y.toNat, hy.2⟩, ?_, hy.1, hx.1, hx.2⟩
      rw [List.getElem?_eq_getElem hy.2]
      rfl
    · rw [dif_neg hx]
      simp only [Option.isSome_none, Bool.false_eq_true, false_iff]
      rintro ⟨row, hrow, hpy, hpx1, hpx2⟩
      rw [List.getElem?_eq_getElem hy.2] at hrow
      have : row = grid.get ⟨p.y.toNat, hy.2⟩ := by
        cases hrow
        rfl
      exact hx ⟨hpx1, this ▸ hpx2⟩
  · rw [dif_neg hy]
    simp only [Option.isSome_none, Bool.false_eq_true, false_iff]
    rintro ⟨row, hrow, hpy, _, _⟩
    have hlt : p.y.toNat < grid.length := by
      by_contra hge
      rw [List.getElem?_eq_none (by omega)] at hrow
      cases hrow
    exact hy ⟨hpy, hlt⟩

theorem sum_take_le (L : List Nat) (k : Nat) : (L.take k).sum ≤ L.sum := by
  conv_rhs => rw [← List.take_append_drop k L]
  rw [List.sum_append]
  omega

theorem sum_take_mono (L : List Nat) {m n : Nat} (h : m ≤ n) :
    (L.take m).sum ≤ (L.take n).sum := by
  have heq : L.take m = (L.take n).take m := by
    rw [List.take_take, Nat.min_eq_left h]
  rw [heq]
  exact sum_take_le _ _

theorem flatIdx_lt (grid : GridArray) (p : Pos) (h : inBoundsPos grid p) :
    flatIdx grid p < gridSize grid := by
  obtain ⟨row, hrow, hpy, hpx1, hpx2⟩ := (inBoundsPos_iff grid p).mp h
  have hylt : p.y.toNat < grid.length := by
    by_contra hge
    rw [List.getElem?_eq_none (by omega)] at hrow
    cases hrow
  rw [flatIdx, gridSize]
  have hLlen : p.y.toNat < (grid.map List.length).length := by
    rw [List.length_map]
    exact hylt
  have hstep := List.sum_take_succ (grid.map List.length) p.y.toNat hLlen
  have hgetL : (grid.map List.length)[p.y.toNat] = row.length := by
    rw [List.getElem_map]
    have : grid[p.y.toNat] = row := by
      have := List.getElem?_eq_getElem hylt
      rw [this] at hrow
      cases hrow
      rfl
    rw [this]
  rw [hgetL] at hstep
  have hle := sum_take_le (grid.map List.length) (p.y.toNat + 1)
  omega

theorem flatIdx_lt_of_ylt (grid : GridArray) (p q : Pos)
    (hp : inBoundsPos grid p) (hlt : p.y.toNat < q.y.toNat) :
    flatIdx grid p < flatIdx grid q := by
  obtain ⟨row, hrow, hpy, hpx1, hpx2⟩ := (inBoundsPos_iff grid p).mp hp
  have hylt : p.y.toNat < grid.length := by
    by_contra hge
    rw [List.getElem?_eq_none (by omega)] at hrow
    cases hrow
  rw [flatIdx, flatIdx]
  have hLlen : p.y.toNat < (grid.map List.length).length := by
    rw [List.length_map]
    exact hylt
  have hstep := List.sum_take_succ (grid.map List.length) p.y.toNat hLlen
  have hgetL : (grid.map List.length)[p.y.toNat] = row.length := by
    rw [List.getElem_map]
    have : grid[p.y.toNat] = row := by
      have hg := List.getElem?_eq_getElem hylt
      rw [hg] at hrow
      cases hrow
      rfl
    rw [this]
  have hkey : p.x.toNat < (grid.map List.length)[p.y.toNat] := by
    rw [hgetL]
    exact hpx2
  have hsucc : p.y.toNat + 1 ≤ q.y.toNat := hlt
  have hmono := sum_take_mono (grid.map List.length) hsucc
  omega

theorem flatIdx_inj (grid : GridArray) (p q : Pos)
    (hp : inBoundsPos grid p) (hq : inBoundsPos grid q)
    (h : flatIdx grid p = flatIdx grid q) : p = q := by
  rcases Nat.lt_trichotomy p.y.toNat q.y.toNat with hlt | heq | hgt
  · exact absurd h (Nat.ne_of_lt (flatIdx_lt_of_ylt grid p q hp hlt))
  · obtain ⟨rowp, hrowp, hpy, hpx1, _⟩ := (inBoundsPos_iff grid p).mp hp
    obtain ⟨rowq, hrowq, hqy, hqx1, _⟩ := (inBoundsPos_iff grid q).mp hq
    rw [flatIdx, flatIdx, heq] at h
    have hx : p.x.toNat = q.x.toNat := by omega
    have hxx : p.x = q.x := by
      rw [← Int.toNat_of_nonneg hpx1, ← Int.toNat_of_nonneg hqx1, hx]
    have hyy : p.y = q.y := by
      rw [← Int.toNat_of_nonneg hpy, ← Int.toNat_of_nonneg hqy, heq]
    cases p
    cases q
    simp only [Pos.mk.injEq]
    exact ⟨hxx, hyy⟩
  · exact absurd h.symm (Nat.ne_of_lt (flatIdx_lt_of_ylt grid q p hq hgt))

theorem nodup_inB_length_le (grid : GridArray) (l : List Node)
    (hnd : (posList l).Nodup) (hinb : ∀ n ∈ l, inBoundsPos grid n.pos) :
    l.length ≤ gridSize grid := by
  have hposb : ∀ p ∈ posList l, inBoundsPos grid p := by
    intro p hp
    obtain ⟨n, hn, hnp⟩ := List.mem_map.mp hp
    exact hnp ▸ hinb n hn
  have hndi : ((posList l).map (flatIdx grid)).Nodup := by
    refine List.Nodup.map_on ?_ hnd
    intro p hp q hq heq
    exact flatIdx_inj grid p q (hposb p hp) (hposb q hq) heq
  have hlt : ∀ i ∈ (posList l).map (flatIdx grid), i < gridSize grid := by
    intro i hi
    obtain ⟨p, hp, hpi⟩ := List.mem_map.mp hi
    exact hpi ▸ flatIdx_lt grid p (hposb p hp)
  have hcard :=
    List.toFinset_card_of_nodup hndi
  have hsub : ((posList l).map (flatIdx grid)).toFinset ⊆ Finset.range (gridSize grid) := by
    intro i hi
    rw [List.mem_toFinset] at hi
    rw [Finset.mem_range]
    exact hlt i hi
  have hle := Finset.card_le_card hsub
  rw [hcard, Finset.card_range, List.length_map, posList, List.length_map] at hle
  exact hle

/-! ## The claims -/

/-- C1 (code bug): the spec promises that `CalculatePath` *returns* the
reversed parent-chain walk on success and an empty path when open runs
out — but the C++ function is `void`: after the loop it only walks the
parent chain, storing nothing, and frees all nodes.  This theorem
evaluates the code at the failing input (the bordered grid `g44`, start
(1,1), end (2,2)): the loop does reach the end and the walk traverses
goal→start cells `[(2,2), (1,1)]` — exactly the reversed-path data the
spec describes — and at `gClosed` (start (1,1), end (2,1)) the open list
empties and the walk traverses `[(1,1)]`, not an empty path; in both
cases nothing is returned to the caller. -/
theorem c1_no_path_returned :
    resultChain (calculatePath g44 1 1 2 2 (gridSize g44 + 1)) =
      some [⟨2, 2⟩, ⟨1, 1⟩] ∧
    resultChain (calculatePath gClosed 1 1 2 1 (gridSize gClosed + 1)) =
      some [⟨1, 1⟩] := by
  constructor
  · rfl
  · rfl

/-- C2 counterexample: the claim says the validity check accepts an
in-bounds cell iff the grid marker is walkable AND the Tile Occupancy
Map reports no solid object.  On the 1×1 walkable grid with a tile whose
solid flag is set, `CheckValidTile` still accepts the cell — the source
never consults any occupancy state — so the claimed equivalence is
false. -/
theorem c2_counterexample :
    ¬ validityConsultsOccupancy gTrivial (fun _ => ⟨none, true, 0⟩) := by
  intro h
  have h2 := h ⟨0, 0⟩ (by decide)
  have h3 := h2.mp (by rfl)
  exact absurd h3.2 (by decide)

/-- C2 as amended: for every in-bounds cell, `CheckValidTile` accepts
iff the grid marker is not `'X'`; the Tile Occupancy Map is not
consulted at all, so neither a solid-object flag nor entity occupancy
can make the check reject a cell. -/
theorem c2_validity_grid_only (grid : GridArray) (p : Pos) (hin : inBoundsPos grid p) :
    checkValidTile grid p = some true ↔ gridAt grid p.y p.x ≠ some 'X' := by
  cases hga : gridAt grid p.y p.x with
  | none =>
    rw [inBoundsPos, hga] at hin
    simp at hin
  | some c =>
    by_cases hc : c = 'X'
    · subst hc
      simp [checkValidTile, hga]
    · simp [checkValidTile, hga, hc]

/-- Witness for C2: the walkable inner cell (1,1) of `g44`. -/
theorem c2_validity_grid_only_witness :
    checkValidTile g44 ⟨1, 1⟩ = some true ↔ gridAt g44 1 1 ≠ some 'X' :=
  c2_validity_grid_only g44 ⟨1, 1⟩ (by decide)

/-- C3 (code bug): the spec (and the source's own comment, "If our node
is lower than the one in the storage / update the node with our newest
g cost") wants the new G cost compared against the *stored open node's*
G cost; the source instead tests `l_GCost < m_Current->GetGCost()`.
Since `l_GCost = m_Current->GetGCost() + 10` or `+ 14`, the test is
never true unless the `uint32` addition wraps, so an existing open node
is never updated or reparented: expansion only ever appends, leaving
every pre-existing open-list entry untouched in place. -/
theorem c3_open_nodes_never_updated (grid : GridArray) (ex ey : Int) (cur : Node)
    (closedL : List Node) (dl : List (Nat × Pos)) (openL openLres : List Node)
    (hg : cur.gCost + 14 < u32)
    (hok : expandDirs grid ex ey cur closedL dl openL = .ok openLres) :
    ∃ extra, openLres = openL ++ extra := by
  obtain ⟨extra, he, _⟩ := expandDirs_ok_append grid ex ey cur closedL hg dl openL openLres hok
  exact ⟨extra, he⟩

/-- Witness for C3, at the failing input the claim cares about: the
current node (1,1) has G 0, its neighbour (2,2) sits in open with G 50,
and the new route would cost only 14 < 50 — yet the stored node keeps
G 50 and its old parent; expansion merely appends the two genuinely new
neighbours. -/
theorem c3_open_nodes_never_updated_witness :
    ∃ extra,
      [c3openNode, Node.mk 1 2 10 20 (some c3cur), Node.mk 2 1 10 20 (some c3cur)] =
        [c3openNode] ++ extra :=
  c3_open_nodes_never_updated g44 2 2 c3cur [c3cur] (enumFrom 0 directions)
    [c3openNode]
    [c3openNode, Node.mk 1 2 10 20 (some c3cur), Node.mk 2 1 10 20 (some c3cur)]
    (by decide) rfl

/-- C4 counterexample: two open nodes with equal total cost 20; the
claim says the node encountered *earlier* in iteration order is
selected, i.e. `cexNodeA` at index 0 — but the source's `<=` comparison
keeps replacing the running best on ties, so the *later* node
`cexNodeB` at index 1 is selected. -/
theorem c4_counterexample :
    cexNodeA.totalCost = cexNodeB.totalCost ∧
    selectNode cexNodeA [cexNodeB] = (cexNodeB, 1) ∧
    cexNodeB.pos ≠ cexNodeA.pos := by
  refine ⟨rfl, rfl, by decide⟩

/-- C4 as amended: the selected node always carries the minimal total
cost of the open list, but among equal-cost nodes the *last* one in
iteration order wins: every node strictly after the selected index has
strictly larger total cost. -/
theorem c4_selection_lowest_cost_last_tie (first : Node) (rest : List Node) :
    (first :: rest)[(selectNode first rest).2]? = some (selectNode first rest).1 ∧
    (∀ n ∈ first :: rest, (selectNode first rest).1.totalCost ≤ n.totalCost) ∧
    (∀ (j : Nat) (n : Node), (selectNode first rest).2 < j →
      (first :: rest)[j]? = some n → (selectNode first rest).1.totalCost < n.totalCost) := by
  obtain ⟨h1, h2, h3⟩ := selectNode_spec first rest
  refine ⟨h1, ?_, h3⟩
  intro n hn
  obtain ⟨i, hi⟩ := List.mem_iff_getElem?.mp hn
  exact h2 i n hi

/-- Witness for C4: the selected node's total cost is no larger than
the first open node's. -/
theorem c4_selection_lowest_cost_last_tie_witness :
    (selectNode cexNodeA [cexNodeB]).1.totalCost ≤ cexNodeA.totalCost :=
  (c4_selection_lowest_cost_last_tie cexNodeA [cexNodeB]).2.1 cexNodeA
    (List.mem_cons_self _ _)

/-- C5 counterexample: expanding the start node (1,1) of `g44` towards
end (2,2) creates a node at (1,2) whose stored H cost is 20 — the
Manhattan heuristic of the *current* node (1,1) — whereas the claim
demands 10 × Manhattan distance from the neighbour's own position
(1,2) to (2,2), which is 10. -/
theorem c5_counterexample :
    (findNode (openOf (calculatePath g44 1 1 2 2 1)) ⟨1, 2⟩).map Node.hCost = some 20 ∧
    10 * (((1 : Int) - 2).natAbs + ((2 : Int) - 2).natAbs) = 10 ∧
    (20 : Nat) ≠ 10 := by
  refine ⟨rfl, rfl, by decide⟩

/-- C5 as amended: every node created during an expansion of `cur`
(absent `uint32` wrap-around) is appended to open with parent `cur`,
H cost `CalculateHeuristic(cur, end)` — i.e. 10 × Manhattan distance
from the *current* node's position, not the neighbour's — and G cost
`cur.G + 10` for an orthogonal step or `cur.G + 14` for a diagonal
step. -/
theorem c5_new_node_costs (grid : GridArray) (ex ey : Int) (cur : Node)
    (closedL : List Node) (openL openLres : List Node)
    (hg : cur.gCost + 14 < u32)
    (hok : expandDirs grid ex ey cur closedL (enumFrom 0 directions) openL = .ok openLres) :
    ∃ extra, openLres = openL ++ extra ∧ ∀ n ∈ extra,
      n.parentNode = some cur ∧
      n.hCost = calculateHeuristic cur ex ey ∧
      n.gCost = cur.gCost + (if n.x = cur.x ∨ n.y = cur.y then 10 else 14) := by
  obtain ⟨extra, he, hprops⟩ :=
    expandDirs_ok_append grid ex ey cur closedL hg _ openL openLres hok
  refine ⟨extra, he, fun n hn => ?_⟩
  obtain ⟨hp, hh, i, d, hmem, hx, hy, hgc⟩ := hprops n hn
  refine ⟨hp, hh, ?_⟩
  rw [hgc]
  congr 1
  have hdir : (d.x = 0 ∨ d.y = 0) ↔ i < 4 := by
    have h8 : ∀ q ∈ enumFrom 0 directions, (q.2.x = 0 ∨ q.2.y = 0) ↔ q.1 < 4 := by decide
    exact h8 (i, d) hmem
  have hxiff : n.x = cur.x ↔ d.x = 0 := by rw [hx]; omega
  have hyiff : n.y = cur.y ↔ d.y = 0 := by rw [hy]; omega
  have hcond : (i < 4) ↔ (n.x = cur.x ∨ n.y = cur.y) := by
    rw [hxiff, hyiff]
    exact hdir.symm
  exact if_congr hcond rfl rfl

/-- Witness for C5: the first expansion of the start node of `g44`. -/
theorem c5_new_node_costs_witness :
    ∃ extra,
      [Node.mk 1 2 10 20 (some c3cur), Node.mk 2 1 10 20 (some c3cur),
       Node.mk 2 2 14 20 (some c3cur)] = [] ++ extra ∧ ∀ n ∈ extra,
        n.parentNode = some c3cur ∧
        n.hCost = calculateHeuristic c3cur 2 2 ∧
        n.gCost = c3cur.gCost + (if n.x = c3cur.x ∨ n.y = c3cur.y then 10 else 14) :=
  c5_new_node_costs g44 2 2 c3cur [c3cur] []
    [Node.mk 1 2 10 20 (some c3cur), Node.mk 2 1 10 20 (some c3cur),
     Node.mk 2 2 14 20 (some c3cur)]
    (by decide) rfl

/-- C6 (code bug): with `start = end` the very first selected node is
the start node and the loop breaks before any neighbour is expanded —
the closed list stays empty, open still holds only the start node, and
the parent-chain walk visits exactly `[start]`.  That matches the
claim's "no expansion" half, but the claimed single-cell *path* is
never produced: the `void` function discards the walk and returns
nothing. -/
theorem c6_start_eq_end_no_expansion (grid : GridArray) (sx sy : Int) (fuel : Nat)
    (hf : 1 ≤ fuel) :
    calculatePath grid sx sy sx sy fuel =
      .reached (Node.mk sx sy 0 0 none) [Node.mk sx sy 0 0 none] [] ∧
    (Node.mk sx sy 0 0 none).chain = [⟨sx, sy⟩] := by
  obtain ⟨f, rfl⟩ : ∃ f, fuel = f + 1 := ⟨fuel - 1, by omega⟩
  refine ⟨?_, rfl⟩
  rw [calculatePath]
  simp only [searchLoop]
  have hsel : selectNode (Node.mk sx sy 0 0 none) [] = (Node.mk sx sy 0 0 none, 0) := by
    rw [selectNode]
    rw [show enumFrom 0 [Node.mk sx sy 0 0 none] = [(0, Node.mk sx sy 0 0 none)] from rfl]
    rw [selectScan, if_pos (le_refl _), selectScan]
  rw [hsel]
  rw [if_pos ⟨rfl, rfl⟩]

/-- Witness for C6: the 1×1 grid with one unit of fuel. -/
theorem c6_start_eq_end_no_expansion_witness :
    calculatePath gTrivial 0 0 0 0 1 =
      .reached (Node.mk 0 0 0 0 none) [Node.mk 0 0 0 0 none] [] ∧
    (Node.mk 0 0 0 0 none).chain = [⟨0, 0⟩] :=
  c6_start_eq_end_no_expansion gTrivial 0 0 1 (by decide)

/-- C7 (code bug): the claim says out-of-bounds neighbours are skipped
before any grid lookup.  In fact `CheckValidTile` performs the raw
`m_Grid[Y][X]` access with no bounds guard: on the fully walkable 2×2
grid, searching from in-bounds (0,0) to in-bounds (1,1) probes the
neighbour (0,-1) in the third direction and indexes row -1 of the grid
— an out-of-range access (undefined behaviour), reached on the very
first expansion. -/
theorem c7_oob_lookup_reachable :
    calculatePath g22 0 0 1 1 (gridSize g22 + 1) = .oobAccess ⟨0, -1⟩ ∧
    gridAt g22 (-1) 0 = none := by
  constructor
  · rfl
  · rfl

/-- C8 counterexample: on the fully walkable 3×1 grid with in-bounds
start (0,0) and in-bounds end (2,0), the loop does *not* terminate by
reaching the end or by exhausting the open list as the claim states —
the first expansion indexes the grid out of range (row 1), which is
undefined behaviour in the source, so no termination guarantee at all
follows from the code there. -/
theorem c8_counterexample :
    terminatedNormally (calculatePath g31 0 0 2 0 (gridSize g31 + 1)) = false := by
  rfl

/-- C8 as amended: for every grid and in-bounds start cell the search
loop does stop within `gridSize + 1` iterations — but the possible
outcomes are reaching the end, exhausting the open list, *or* aborting
on an out-of-bounds grid access; the iteration bound itself is a
function of the grid's size, with no timeout involved.  The proof:
every iteration that neither breaks nor aborts moves one node to the
closed list, the open and closed lists never hold two nodes with one
coordinate, and every node's coordinate is an in-bounds cell, of which
there are only `gridSize` many. -/
theorem c8_bounded_termination (grid : GridArray) (sx sy ex ey : Int)
    (hs : inBoundsPos grid ⟨sx, sy⟩) :
    isOutOfFuel (calculatePath grid sx sy ex ey (gridSize grid + 1)) = false := by
  rw [calculatePath]
  cases hres : searchLoop grid ex ey (gridSize grid + 1)
      [Node.mk sx sy 0 0 none] [] none with
  | reached cur o c => rfl
  | exhausted cur c => rfl
  | oobAccess p => rfl
  | outOfFuel o c m =>
    exfalso
    have hlen := searchLoop_outOfFuel_length grid ex ey (gridSize grid + 1)
      [Node.mk sx sy 0 0 none] [] none o c m hres
    have hnodup := searchLoop_resultNodup grid ex ey (gridSize grid + 1)
      [Node.mk sx sy 0 0 none] [] none (by rw [StateNodup]; simp [posList])
    have hinb := searchLoop_resultInB grid ex ey (gridSize grid + 1)
      [Node.mk sx sy 0 0 none] [] none ?_
    · rw [hres] at hnodup hinb
      simp only [resultNodup, resultInB] at hnodup hinb
      have hclen : c.length ≤ gridSize grid := by
        apply nodup_inB_length_le grid c
        · rw [StateNodup] at hnodup
          exact (List.nodup_append.mp hnodup).2.1
        · intro n hn
          exact hinb n (List.mem_append.mpr (Or.inr hn))
      simp only [List.length_nil] at hlen
      omega
    · intro n hn
      simp only [List.append_nil, List.mem_singleton] at hn
      subst hn
      simpa [Node.pos] using hs

/-- Witness for C8: the bordered grid `g44` from its in-bounds inner
cell (1,1). -/
theorem c8_bounded_termination_witness :
    isOutOfFuel (calculatePath g44 1 1 2 2 (gridSize g44 + 1)) = false :=
  c8_bounded_termination g44 1 1 2 2 (by decide)

/-- C9 (spec-modelled: the implementations of `SetTileOccupied` and
`CanWalkOnTile` are not among the sources, only their declarations):
occupying a tile with an entity and then clearing the occupancy leaves
`CanWalkOn` exactly as it was before — per the spec, `SetOccupied` only
assigns or clears the occupying-entity reference and walkability is
decided by the solid flag, which neither call touches. -/
theorem c9_occupy_roundtrip (t : TileInstance) (entityA : Nat) :
    canWalkOnTile (setTileOccupied false none (setTileOccupied true (some entityA) t)) =
      canWalkOnTile t := by
  rfl

/-- C10: at every point of a run of `CalculatePath` — observed after
any number of iterations via the fuel bound, as well as at both final
states — the open and closed lists together never contain two nodes
with the same (x, y) coordinate: a node is created only for a position
present in neither list, the (unreachable) update path rewrites an open
node in place, and moving the selected node from open to closed merely
permutes the combined coordinate multiset. -/
theorem c10_no_duplicate_coordinates (grid : GridArray) (sx sy ex ey : Int) (fuel : Nat) :
    resultNodup (calculatePath grid sx sy ex ey fuel) := by
  rw [calculatePath]
  apply searchLoop_resultNodup
  rw [StateNodup]
  simp [posList]
